import Mathlib

/-!
Verification of the character-selector engine of `wezterm-gui`
(`src/wezterm-gui/src/termwindow/charselect.rs`).

The development embeds the catalog data model (`Alias`, `Character`,
`Alias.codepoints`), the matcher (`compute_matches` with its helper
`MatchResult::new`), and the selection state with its mutators
(`updated_input`, `move_up`, `move_down`, the `key_down` branches and the
match-cache refresh of `computed_element`).

The fuzzy scorer (`SkimMatcherV2::fuzzy_match` from the external
`fuzzy_matcher` crate) is not part of this repository; following the spec,
which treats it as a pluggable total scoring function, the embedding is
parameterized over an arbitrary `Matcher : String → String → Option Int`.
A concrete executable instance (`modelFuzzy`) is provided for witnesses and
counterexamples.

Machine integers: `usize` values are modelled as `Nat`; scores (`i64`) as
`Int` with `maxScore = 2^63 - 1` standing for `i64::max_value()`.  The two
checked `usize` operations in `move_down` (`max_rows_on_screen - 1` and
`*row + *top_row`) can overflow in Rust, which is a program error (a panic
under debug assertions); `moveDown` therefore returns an `Option`, with
`none` exactly in those overflow cases.  Saturating operations coincide
with truncated `Nat` arithmetic.
-/

/-- The character-selector groups.  The `CharSelectGroup` enumeration lives
in the `config` crate; the variants used by `charselect.rs` and listed by
the spec are embedded here. -/
inductive CharSelectGroup
  | smileysAndEmotion
  | peopleAndBody
  | animalsAndNature
  | foodAndDrink
  | travelAndPlaces
  | activities
  | objects
  | symbols
  | flags
  | unicodeNames
  | nerdFonts
deriving DecidableEq

/-- Modelled from the spec: `CharSelectGroup::next` is defined in the
`config` crate, not under `src/`; the spec says the group filter is
"cycled through a fixed ordered enumeration of groups".  `next` steps to
the following variant in declaration order, wrapping around. -/
def CharSelectGroup.next : CharSelectGroup → CharSelectGroup
  | .smileysAndEmotion => .peopleAndBody
  | .peopleAndBody => .animalsAndNature
  | .animalsAndNature => .foodAndDrink
  | .foodAndDrink => .travelAndPlaces
  | .travelAndPlaces => .activities
  | .activities => .objects
  | .objects => .symbols
  | .symbols => .flags
  | .flags => .unicodeNames
  | .unicodeNames => .nerdFonts
  | .nerdFonts => .smileysAndEmotion

/-- The `Character` enum: either a named Unicode scalar or an emoji.  The
external `&'static Emoji` handle is represented by the emoji's rendered
string (its `as_str()`), the only thing `charselect.rs` reads from it. -/
inductive Character
  | unicode (name : String) (value : Char)
  | emoji (text : String)
deriving DecidableEq

/-- One catalog entry (`struct Alias`). -/
structure Alias where
  name : String
  character : Character
  group : CharSelectGroup
deriving DecidableEq

/-- The glyph rendered for an entry (`Alias::glyph`). -/
def Alias.glyph (a : Alias) : String :=
  match a.character with
  | .unicode _ value => value.toString
  | .emoji text => text

/-- Uppercase hexadecimal digit (value below 16), as produced by Rust's
`{:X}` formatting. -/
def hexDigitChar (n : Nat) : Char :=
  if n < 10 then Char.ofNat (48 + n) else Char.ofNat (55 + n)

/-- Little-endian digit list of `n` in base 16, uppercase; the first
argument is structural fuel (any value at least the digit count works). -/
def toHexRevAux : Nat → Nat → List Char
  | 0, _ => []
  | fuel + 1, n => if n = 0 then [] else hexDigitChar (n % 16) :: toHexRevAux fuel (n / 16)

/-- Uppercase hexadecimal rendering of a natural number, no leading zeros,
`0` rendered as `"0"` — Rust's `format!("{:X}", n)`. -/
def toHexUpper (n : Nat) : String :=
  if n = 0 then "0" else String.mk (toHexRevAux n n).reverse

/-- Space-separated `U+<HEX>` tokens, one per scalar value of the glyph
(`Alias::codepoints`). -/
def Alias.codepoints (a : Alias) : String :=
  a.glyph.data.foldl
    (fun res c =>
      (if res = "" then res else res.push ' ') ++ "U+" ++ toHexUpper c.toNat)
    ""

/-- The maximum representable score, `i64::max_value()`. -/
def maxScore : Int := 2 ^ 63 - 1

/-- Abstract fuzzy scorer: `SkimMatcherV2::fuzzy_match(choice, pattern)`.
The external library is treated, as the spec directs, as a pluggable total
scoring function returning `none` for "no match". -/
def Matcher : Type := String → String → Option Int

/-- Scores produced by the scorer are `i64` values, hence at most
`i64::max_value()`.  Hypothesis used wherever a claim needs scores to be
representable. -/
def FmBounded (fm : Matcher) : Prop :=
  ∀ choice pattern k, fm choice pattern = some k → k ≤ maxScore

/-- One scored row (`struct MatchResult`). -/
structure MatchResult where
  row_idx : Nat
  score : Int
deriving DecidableEq

/-- Name of the alias at index `i` (`aliases[row_idx].name`; all call
sites use in-range indices). -/
def aliasName (aliases : List Alias) (i : Nat) : String :=
  ((aliases.get? i).map Alias.name).getD ""

/-- `MatchResult::new`: pumps the score up to the maximum for an exact
name match. -/
def MatchResult.new (row_idx : Nat) (score : Int) (selection : String)
    (aliases : List Alias) : MatchResult :=
  { row_idx
    score := if aliasName aliases row_idx = selection then maxScore else score }

/-- Rust `char::is_ascii_hexdigit`. -/
def isAsciiHexdigit (c : Char) : Bool :=
  ('0' ≤ c && c ≤ '9') || ('a' ≤ c && c ≤ 'f') || ('A' ≤ c && c ≤ 'F')

/-- Byte-prefix test `selection.starts_with("U+")`; since `"U+"` is ASCII
this is exactly "the first two characters are `U`, `+`". -/
def startsWithUPlus (s : String) : Bool :=
  match s.data with
  | 'U' :: '+' :: _ => true
  | _ => false

/-- The `numeric_selection` normalization of `compute_matches`. -/
def numericSelection (selection : String) : Option String :=
  if selection.data.all isAsciiHexdigit then some ("U+" ++ selection)
  else if startsWithUPlus selection then some selection
  else none

/-- The body of the `filter_map` closure of `compute_matches`: the score
record produced for the entry `entry` at index `row_idx` (`none` when the
entry matches on neither path). -/
def entryScore (fm : Matcher) (selection : String) (aliases : List Alias)
    (row_idx : Nat) (entry : Alias) : Option MatchResult :=
  let alias_result :=
    (fm entry.name selection).map
      (fun score => MatchResult.new row_idx score selection aliases)
  match numericSelection selection with
  | none => alias_result
  | some sel =>
    if entry.codepoints = sel then some { row_idx, score := maxScore }
    else
      let number_result :=
        (fm entry.codepoints sel).map
          (fun score => MatchResult.new row_idx score sel aliases)
      match alias_result, number_result with
      | some a, some b => some { row_idx, score := max a.score b.score }
      | some a, none => some a
      | none, some b => some b
      | none, none => none

/-- `aliases.iter().enumerate().filter_map(...)` of the non-empty branch of
`compute_matches`, with `i` the index of the first element of `l`. -/
def scoredAux (fm : Matcher) (selection : String) (aliases : List Alias) :
    Nat → List Alias → List MatchResult
  | _, [] => []
  | i, e :: rest =>
    match entryScore fm selection aliases i e with
    | some mr => mr :: scoredAux fm selection aliases (i + 1) rest
    | none => scoredAux fm selection aliases (i + 1) rest

/-- `aliases.iter().enumerate().filter(...).map(...)` of the empty-query
branch of `compute_matches`, with `i` the index of the first element. -/
def groupAux (group : CharSelectGroup) : Nat → List Alias → List Nat
  | _, [] => []
  | i, e :: rest =>
    if e.group = group then i :: groupAux group (i + 1) rest
    else groupAux group (i + 1) rest

/-- Stable insertion step for the descending sort
`scores.sort_by(|a, b| a.score.cmp(&b.score).reverse())`; an element keeps
its position relative to earlier equal-score elements. -/
def insertScored (x : MatchResult) : List MatchResult → List MatchResult
  | [] => [x]
  | h :: t => if h.score ≤ x.score then x :: h :: t else h :: insertScored x t

/-- Stable sort by score, descending (Rust's `sort_by` is stable). -/
def sortScored : List MatchResult → List MatchResult
  | [] => []
  | x :: xs => insertScored x (sortScored xs)

/-- `compute_matches`. -/
def computeMatches (fm : Matcher) (selection : String) (aliases : List Alias)
    (group : CharSelectGroup) : List Nat :=
  if selection = "" then groupAux group 0 aliases
  else (sortScored (scoredAux fm selection aliases 0 aliases)).map MatchResult.row_idx

/-- The cached match results (`struct MatchResults`). -/
structure MatchResults where
  selection : String
  matches' : List Nat
  group : CharSelectGroup
deriving DecidableEq

/-- The mutable selection state of `CharSelector` (the rendering-only
`element` cache is out of scope; the immutable `aliases` table is passed as
a parameter to the operations that read it). -/
structure SelectorState where
  group : CharSelectGroup
  selection : String
  matches' : Option MatchResults
  selectedRow : Nat
  topRow : Nat
  maxRowsOnScreen : Nat
deriving DecidableEq

/-- The state produced by `CharSelector::new` for a starting group. -/
def initialState (group : CharSelectGroup) : SelectorState :=
  { group, selection := "", matches' := none, selectedRow := 0, topRow := 0,
    maxRowsOnScreen := 0 }

/-- `CharSelector::updated_input`. -/
def updatedInput (s : SelectorState) : SelectorState :=
  { s with selectedRow := 0, topRow := 0 }

/-- `CharSelector::move_up` (both operations saturate, so it never fails). -/
def moveUp (s : SelectorState) : SelectorState :=
  let row := s.selectedRow - 1
  { s with selectedRow := row,
           topRow := if row < s.topRow then row else s.topRow }

/-- `CharSelector::move_down`.  The checked `usize` operations
`max_rows_on_screen - 1` and `*row + *top_row` are overflow program errors
in Rust (a panic under debug assertions); those cases yield `none`.
`saturating_sub` is `Nat` subtraction, and `saturating_add(1).min(limit)`
agrees with `min (· + 1) limit` for `usize`-sized values. -/
def moveDown (aliases : List Alias) (s : SelectorState) : Option SelectorState :=
  let max_rows_on_screen := s.maxRowsOnScreen
  let limit :=
    (match s.matches' with
     | some m => m.matches'.length
     | none => aliases.length) - 1
  let row := min (s.selectedRow + 1) limit
  if max_rows_on_screen = 0 ∨ 2 ^ 64 ≤ row + s.topRow then none
  else
    some { s with
           selectedRow := row,
           topRow :=
             if row + s.topRow > max_rows_on_screen - 1 then
               row - (max_rows_on_screen - 1)
             else s.topRow }

/-- The `KeyCode::Char` branch of `key_down`: append a typed character. -/
def appendChar (c : Char) (s : SelectorState) : SelectorState :=
  updatedInput { s with selection := s.selection.push c }

/-- The `KeyCode::Backspace` branch of `key_down`: `String::pop` removes
the last character. -/
def backspace (s : SelectorState) : SelectorState :=
  updatedInput { s with selection := String.mk s.selection.data.dropLast }

/-- The CTRL-u branch of `key_down`: clear the selection. -/
def clearQuery (s : SelectorState) : SelectorState :=
  updatedInput { s with selection := "" }

/-- The CTRL-r branch of `key_down`: cycle the group and clear the
selection. -/
def cycleGroup (s : SelectorState) : SelectorState :=
  updatedInput { s with group := s.group.next, selection := "" }

/-- The match-cache refresh of `computed_element` (lines 546-556): rebuild
the cached `MatchResults` exactly when no cache exists or the cached
(query, group) pair differs from the current one.  The returned `Bool`
records whether `compute_matches` ran. -/
def updateMatches (fm : Matcher) (aliases : List Alias) (s : SelectorState) :
    SelectorState × Bool :=
  let rebuild :=
    match s.matches' with
    | some m => m.selection != s.selection || m.group != s.group
    | none => true
  if rebuild then
    ({ s with matches' := some { selection := s.selection,
                                    matches' := computeMatches fm s.selection aliases s.group,
                                    group := s.group } },
     true)
  else (s, false)

/-- Length of the collection `move_down` clamps against: the cached match
list when present, the whole alias table otherwise. -/
def cachedLen (aliases : List Alias) (s : SelectorState) : Nat :=
  match s.matches' with
  | some m => m.matches'.length
  | none => aliases.length

/-- The selection-state invariants of the spec (data-model section): a
cache exists and corresponds to the current query and group filter, the
cursor is visible in the viewport, and the cursor is within the result
(the `2 ^ 63` bound reflects that a Rust `Vec` never holds more than
`isize::MAX` elements). -/
def StateInv (aliases : List Alias) (s : SelectorState) : Prop :=
  (∃ m, s.matches' = some m ∧ m.selection = s.selection ∧ m.group = s.group) ∧
  s.topRow ≤ s.selectedRow ∧
  s.selectedRow < s.topRow + s.maxRowsOnScreen ∧
  s.selectedRow < max 1 (cachedLen aliases s) ∧
  cachedLen aliases s ≤ 2 ^ 63

/-- A cursor movement request. -/
inductive Move
  | up
  | down
deriving DecidableEq

/-- Apply one cursor movement. -/
def stepMove (aliases : List Alias) (s : SelectorState) : Move → Option SelectorState
  | .up => some (moveUp s)
  | .down => moveDown aliases s

/-- Apply a sequence of cursor movements, failing if any single step
fails. -/
def applyMoves (aliases : List Alias) : List Move → SelectorState → Option SelectorState
  | [], s => some s
  | m :: ms, s =>
    match stepMove aliases s m with
    | some s1 => applyMoves aliases ms s1
    | none => none

/-- ASCII lowercase folding (used by the case-insensitive comparisons the
spec's claims talk about, and by the demonstration scorer). -/
def lowerChar (c : Char) : Char :=
  if 'A' ≤ c && c ≤ 'Z' then Char.ofNat (c.toNat + 32) else c

/-- Case-insensitive (ASCII) subsequence test. -/
def isSubseqCI : List Char → List Char → Bool
  | [], _ => true
  | _ :: _, [] => false
  | q :: qs, c :: cs =>
    if lowerChar q = lowerChar c then isSubseqCI qs cs else isSubseqCI (q :: qs) cs

/-- Modelled from the spec: a concrete stand-in for the external
`SkimMatcherV2` scorer, which is not code of this repository.  Per the
spec it is a total subsequence matcher returning a bounded score; this
instance matches case-insensitively (skim's smart-case behaviour on
lowercase queries) and scores by (capped) pattern length.  Used only to
instantiate witnesses and counterexamples. -/
def modelFuzzy : Matcher :=
  fun choice pattern =>
    if isSubseqCI pattern.data choice.data then
      some (Int.ofNat (min pattern.length 100))
    else none

/-- A scorer that never matches (an admissible `Matcher`; used in
witnesses). -/
def neverMatch : Matcher := fun _ _ => none

/-- Case-insensitive (ASCII) string equality, used to state the spec's
"case-insensitive digit match" claim. -/
def eqCaseInsensitive (a b : String) : Bool :=
  a.data.map lowerChar == b.data.map lowerChar

/-- The name-path score of an entry: fuzzy match of the entry name against
the raw selection (first half of the `filter_map` closure). -/
def namePath (fm : Matcher) (selection : String) (aliases : List Alias)
    (row_idx : Nat) (entry : Alias) : Option MatchResult :=
  (fm entry.name selection).map
    (fun score => MatchResult.new row_idx score selection aliases)

/-- The codepoint-path score of an entry: forced maximum on exact equality
with the normalized selection, fuzzy match of the codepoint string
otherwise. -/
def cpPath (fm : Matcher) (sel : String) (aliases : List Alias)
    (row_idx : Nat) (entry : Alias) : Option MatchResult :=
  if entry.codepoints = sel then some { row_idx, score := maxScore }
  else
    (fm entry.codepoints sel).map
      (fun score => MatchResult.new row_idx score sel aliases)

/-- Combination of the two paths: an entry matches if either path matches,
and scores by the better of the two. -/
def combinePaths (row_idx : Nat) :
    Option MatchResult → Option MatchResult → Option MatchResult
  | some a, some b => some { row_idx, score := max a.score b.score }
  | some a, none => some a
  | none, some b => some b
  | none, none => none

/-- Demonstration group used by concrete witnesses. -/
def demoGroup : CharSelectGroup := .smileysAndEmotion

/-- Demonstration entry: an arbitrarily-named alias for U+1F600. -/
def wAlias : Alias :=
  { name := "zzz", character := .unicode "zzz" (Char.ofNat 0x1F600),
    group := demoGroup }

/-- Singleton catalog for witnesses. -/
def wAliases : List Alias := [wAlias]

/-- Entry whose codepoint string `"U+1F600"` matches the query `"1f600"`
only case-insensitively. -/
def cEntry1 : Alias :=
  { name := "zzz", character := .unicode "zzz" (Char.ofNat 0x1F600),
    group := demoGroup }

/-- Catalog for the C1 counterexample: entry 0 is an emoji whose codepoint
string `"U+1F600 U+200D"` fuzzy-matches the normalized query without being
equal to it; entry 1 is `cEntry1`. -/
def cAliases1 : List Alias :=
  [{ name := "zzz",
     character := .emoji (String.mk [Char.ofNat 0x1F600, Char.ofNat 0x200D]),
     group := demoGroup },
   cEntry1]

/-- Catalog with two entries of the same name (the spec allows duplicate
names: canonical name and shortcode of one glyph are distinct entries). -/
def cAliases5 : List Alias :=
  [{ name := "zz", character := .unicode "zz" 'a', group := demoGroup },
   { name := "zz", character := .unicode "zz" 'b', group := demoGroup }]

/-- A post-render state with an unmatched query (used by the C2 witness). -/
def wState2 : SelectorState :=
  { group := demoGroup, selection := "q", matches' := none, selectedRow := 0,
    topRow := 0, maxRowsOnScreen := 5 }

/-- A well-formed post-render state with a valid one-row cache (used by the
C3 witness). -/
def wState3 : SelectorState :=
  { group := demoGroup, selection := "",
    matches' := some { selection := "", matches' := [0], group := demoGroup },
    selectedRow := 0, topRow := 0, maxRowsOnScreen := 3 }

/-- Entry for the C7 witness: named `"zzz"`, glyph U+A, codepoint string
`"U+A"`. -/
def wAlias7 : Alias :=
  { name := "zzz", character := .unicode "zzz" (Char.ofNat 0xA),
    group := demoGroup }

/-- Singleton catalog for the C7 witness. -/
def wAliases7 : List Alias := [wAlias7]

/-- Membership in the empty-query enumeration: exactly the in-range indices
(shifted by the starting index) whose entry lies in the requested group. -/
theorem groupAux_mem (g : CharSelectGroup) :
    ∀ (l : List Alias) (i j : Nat),
      (j ∈ groupAux g i l ↔
        ∃ k a, l.get? k = some a ∧ j = i + k ∧ a.group = g)
  | [], i, j => by simp [groupAux]
  | e :: rest, i, j => by
    have ih := groupAux_mem g rest (i + 1) j
    by_cases he : e.group = g
    · simp only [groupAux, if_pos he, List.mem_cons, ih]
      constructor
      · rintro (rfl | ⟨k, a, hk, rfl, hg⟩)
        · exact ⟨0, e, rfl, by omega, he⟩
        · exact ⟨k + 1, a, by simpa using hk, by omega, hg⟩
      · rintro ⟨k, a, hk, rfl, hg⟩
        cases k with
        | zero =>
          left
          simp at hk
          omega
        | succ k =>
          right
          exact ⟨k, a, by simpa using hk, by omega, hg⟩
    · simp only [groupAux, if_neg he, ih]
      constructor
      · rintro ⟨k, a, hk, rfl, hg⟩
        exact ⟨k + 1, a, by simpa using hk, by omega, hg⟩
      · rintro ⟨k, a, hk, rfl, hg⟩
        cases k with
        | zero =>
          simp at hk
          subst hk
          exact absurd hg he
        | succ k =>
          exact ⟨k, a, by simpa using hk, by omega, hg⟩

/-- Every index produced by `groupAux` is at least the starting index. -/
theorem groupAux_le_of_mem {g : CharSelectGroup} {l : List Alias} {i j : Nat}
    (h : j ∈ groupAux g i l) : i ≤ j := by
  obtain ⟨k, a, -, rfl, -⟩ := (groupAux_mem g l i j).mp h
  omega

/-- The empty-query enumeration is strictly ascending. -/
theorem groupAux_pairwise (g : CharSelectGroup) :
    ∀ (l : List Alias) (i : Nat), (groupAux g i l).Pairwise (· < ·)
  | [], _ => by simp [groupAux]
  | e :: rest, i => by
    by_cases he : e.group = g
    · simp only [groupAux, if_pos he]
      refine List.Pairwise.cons ?_ (groupAux_pairwise g rest (i + 1))
      intro j hj
      have := groupAux_le_of_mem hj
      omega
    · simpa only [groupAux, if_neg he] using groupAux_pairwise g rest (i + 1)

/-- Unfolding of `entryScore` when the selection is not numeric. -/
theorem entryScore_none_eq {fm : Matcher} {sel : String} {aliases : List Alias}
    {i : Nat} {e : Alias} (hn : numericSelection sel = none) :
    entryScore fm sel aliases i e =
      (fm e.name sel).map (fun k => MatchResult.new i k sel aliases) := by
  unfold entryScore
  rw [hn]

/-- Unfolding of `entryScore` when the selection normalizes to `s`. -/
theorem entryScore_some_eq {fm : Matcher} {sel : String} {aliases : List Alias}
    {i : Nat} {e : Alias} {s : String} (hn : numericSelection sel = some s) :
    entryScore fm sel aliases i e =
      if e.codepoints = s then some { row_idx := i, score := maxScore }
      else
        match (fm e.name sel).map (fun k => MatchResult.new i k sel aliases),
              (fm e.codepoints s).map (fun k => MatchResult.new i k s aliases) with
        | some a, some b => some { row_idx := i, score := max a.score b.score }
        | some a, none => some a
        | none, some b => some b
        | none, none => none := by
  unfold entryScore
  rw [hn]

/-- The row index recorded in a score result is the enumeration index it
was produced for. -/
theorem entryScore_row {fm : Matcher} {sel : String} {aliases : List Alias}
    {i : Nat} {e : Alias} {mr : MatchResult}
    (h : entryScore fm sel aliases i e = some mr) : mr.row_idx = i := by
  rcases hn : numericSelection sel with _ | s
  · rw [entryScore_none_eq hn] at h
    rcases hf : fm e.name sel with _ | k <;> rw [hf] at h <;>
      simp only [Option.map] at h
    · cases h
    · cases h
      rfl
  · rw [entryScore_some_eq hn] at h
    by_cases hc : e.codepoints = s
    · rw [if_pos hc] at h
      cases h
      rfl
    · rw [if_neg hc] at h
      rcases hf : fm e.name sel with _ | k <;> rw [hf] at h <;>
        rcases hg : fm e.codepoints s with _ | k2 <;> rw [hg] at h <;>
        simp only [Option.map] at h
      · cases h
      · cases h
        rfl
      · cases h
        rfl
      · cases h
        rfl

/-- The score field of `MatchResult::new` never exceeds the maximum when
the raw score does not. -/
theorem MatchResult.new_score_le {i : Nat} {k : Int} {s : String}
    {aliases : List Alias} (hk : k ≤ maxScore) :
    (MatchResult.new i k s aliases).score ≤ maxScore := by
  unfold MatchResult.new
  dsimp only
  split <;> omega

/-- With an `i64`-bounded scorer, every produced score is at most the
maximum representable score. -/
theorem entryScore_score_le {fm : Matcher} (hb : FmBounded fm) {sel : String}
    {aliases : List Alias} {i : Nat} {e : Alias} {mr : MatchResult}
    (h : entryScore fm sel aliases i e = some mr) : mr.score ≤ maxScore := by
  rcases hn : numericSelection sel with _ | s
  · rw [entryScore_none_eq hn] at h
    rcases hf : fm e.name sel with _ | k <;> rw [hf] at h <;>
      simp only [Option.map] at h
    · cases h
    · cases h
      exact MatchResult.new_score_le (hb _ _ _ hf)
  · rw [entryScore_some_eq hn] at h
    by_cases hc : e.codepoints = s
    · rw [if_pos hc] at h
      cases h
      exact le_refl _
    · rw [if_neg hc] at h
      rcases hf : fm e.name sel with _ | k <;> rw [hf] at h <;>
        rcases hg : fm e.codepoints s with _ | k2 <;> rw [hg] at h <;>
        simp only [Option.map] at h
      · cases h
      · cases h
        exact MatchResult.new_score_le (hb _ _ _ hg)
      · cases h
        exact MatchResult.new_score_le (hb _ _ _ hf)
      · cases h
        simp only [max_le_iff]
        exact ⟨MatchResult.new_score_le (hb _ _ _ hf),
               MatchResult.new_score_le (hb _ _ _ hg)⟩

/-- Membership in the enumerated score list: exactly the score records the
closure produces at some in-range (shifted) index. -/
theorem scoredAux_mem (fm : Matcher) (sel : String) (aliases : List Alias) :
    ∀ (l : List Alias) (i : Nat) (mr : MatchResult),
      (mr ∈ scoredAux fm sel aliases i l ↔
        ∃ k a, l.get? k = some a ∧ entryScore fm sel aliases (i + k) a = some mr)
  | [], i, mr => by simp [scoredAux]
  | e :: rest, i, mr => by
    have ih := scoredAux_mem fm sel aliases rest (i + 1) mr
    rcases h0 : entryScore fm sel aliases i e with _ | mr0
    · simp only [scoredAux, h0, ih]
      constructor
      · rintro ⟨k, a, hk, hsc⟩
        refine ⟨k + 1, a, by simpa using hk, ?_⟩
        rw [show i + (k + 1) = i + 1 + k by omega]
        exact hsc
      · rintro ⟨k, a, hk, hsc⟩
        cases k with
        | zero =>
          simp at hk
          subst hk
          rw [Nat.add_zero] at hsc
          rw [h0] at hsc
          cases hsc
        | succ k =>
          refine ⟨k, a, by simpa using hk, ?_⟩
          rw [show i + 1 + k = i + (k + 1) by omega]
          exact hsc
    · simp only [scoredAux, h0, List.mem_cons, ih]
      constructor
      · rintro (rfl | ⟨k, a, hk, hsc⟩)
        · exact ⟨0, e, rfl, by simpa using h0⟩
        · refine ⟨k + 1, a, by simpa using hk, ?_⟩
          rw [show i + (k + 1) = i + 1 + k by omega]
          exact hsc
      · rintro ⟨k, a, hk, hsc⟩
        cases k with
        | zero =>
          left
          simp at hk
          subst hk
          rw [Nat.add_zero] at hsc
          rw [h0] at hsc
          exact (Option.some_inj.mp hsc).symm
        | succ k =>
          right
          refine ⟨k, a, by simpa using hk, ?_⟩
          rw [show i + 1 + k = i + (k + 1) by omega]
          exact hsc

/-- Every produced row index is at least the starting index. -/
theorem scoredAux_le_of_mem {fm : Matcher} {sel : String} {aliases l : List Alias}
    {i : Nat} {mr : MatchResult} (h : mr ∈ scoredAux fm sel aliases i l) :
    i ≤ mr.row_idx := by
  obtain ⟨k, a, -, hsc⟩ := (scoredAux_mem fm sel aliases l i mr).mp h
  have := entryScore_row hsc
  omega

/-- The enumerated score list carries strictly ascending row indices. -/
theorem scoredAux_pairwise (fm : Matcher) (sel : String) (aliases : List Alias) :
    ∀ (l : List Alias) (i : Nat),
      (scoredAux fm sel aliases i l).Pairwise
        (fun a b => a.row_idx < b.row_idx)
  | [], _ => by simp [scoredAux]
  | e :: rest, i => by
    rcases h0 : entryScore fm sel aliases i e with _ | mr0
    · simpa only [scoredAux, h0] using scoredAux_pairwise fm sel aliases rest (i + 1)
    · simp only [scoredAux, h0]
      refine List.Pairwise.cons ?_ (scoredAux_pairwise fm sel aliases rest (i + 1))
      intro b hb
      have h1 := scoredAux_le_of_mem hb
      have h2 := entryScore_row h0
      omega

/-- The ordering the stable descending sort realizes on inputs with
ascending row indices: score strictly greater, or equal score with the
catalog order preserved. -/
def ScoreLex (a b : MatchResult) : Prop :=
  b.score < a.score ∨ (a.score = b.score ∧ a.row_idx < b.row_idx)

/-- Membership through one insertion step. -/
theorem insertScored_mem {x y : MatchResult} :
    ∀ {l : List MatchResult}, (y ∈ insertScored x l ↔ y = x ∨ y ∈ l)
  | [] => by simp [insertScored]
  | h :: t => by
    by_cases hs : h.score ≤ x.score
    · simp [insertScored, if_pos hs]
    · simp only [insertScored, if_neg hs, List.mem_cons, insertScored_mem]
      tauto

/-- Membership is preserved by the sort. -/
theorem sortScored_mem {y : MatchResult} :
    ∀ {l : List MatchResult}, (y ∈ sortScored l ↔ y ∈ l)
  | [] => by simp [sortScored]
  | x :: xs => by
    simp only [sortScored, insertScored_mem, List.mem_cons, sortScored_mem]

/-- Inserting an element whose row index exceeds every row index already
present preserves lexicographic sortedness. -/
theorem insertScored_pairwise {x : MatchResult} :
    ∀ {l : List MatchResult}, l.Pairwise ScoreLex →
      (∀ y ∈ l, x.row_idx < y.row_idx) →
      (insertScored x l).Pairwise ScoreLex
  | [], _, _ => by simp [insertScored]
  | h :: t, hpw, hrow => by
    rcases List.pairwise_cons.mp hpw with ⟨hht, hpt⟩
    by_cases hs : h.score ≤ x.score
    · rw [insertScored, if_pos hs]
      refine List.Pairwise.cons ?_ hpw
      intro y hy
      have hy2 : y.score ≤ h.score ∧ x.row_idx < y.row_idx := by
        rcases List.mem_cons.mp hy with rfl | hyt
        · exact ⟨le_refl _, hrow _ hy⟩
        · rcases hht y hyt with hlt | ⟨heq, -⟩
          · exact ⟨le_of_lt hlt, hrow _ hy⟩
          · exact ⟨le_of_eq heq.symm, hrow _ hy⟩
      rcases lt_or_eq_of_le (le_trans hy2.1 hs) with hlt | heq
      · exact Or.inl hlt
      · exact Or.inr ⟨heq.symm, hy2.2⟩
    · rw [insertScored, if_neg hs]
      refine List.Pairwise.cons ?_ ?_
      · intro y hy
        rcases insertScored_mem.mp hy with rfl | hyt
        · exact Or.inl (lt_of_not_le hs)
        · exact hht y hyt
      · exact insertScored_pairwise hpt (fun y hy => hrow y (List.mem_cons_of_mem _ hy))

/-- The stable descending sort of a row-ascending list is sorted for
`ScoreLex`: descending scores, with ties kept in catalog order. -/
theorem sortScored_pairwise :
    ∀ {l : List MatchResult}, l.Pairwise (fun a b => a.row_idx < b.row_idx) →
      (sortScored l).Pairwise ScoreLex
  | [], _ => by simp [sortScored]
  | x :: xs, hpw => by
    rcases List.pairwise_cons.mp hpw with ⟨hx, hxs⟩
    rw [sortScored]
    exact insertScored_pairwise (sortScored_pairwise hxs)
      (fun y hy => hx y (sortScored_mem.mp hy))

/-- Unfolding of `compute_matches` for a non-empty selection. -/
theorem computeMatches_ne {fm : Matcher} {q : String} {aliases : List Alias}
    {g : CharSelectGroup} (hq : q ≠ "") :
    computeMatches fm q aliases g =
      (sortScored (scoredAux fm q aliases 0 aliases)).map MatchResult.row_idx := by
  rw [computeMatches, if_neg hq]

/-- Placement of a maximum-scored row: it occurs in the output, and every
row listed before it is itself maximum-scored with a smaller catalog
index. -/
theorem maxEntry_first (fm : Matcher) (hb : FmBounded fm) (q : String)
    (hq : q ≠ "") (aliases : List Alias) (g : CharSelectGroup) (i : Nat)
    (a : Alias) (ha : aliases.get? i = some a)
    (hsc : entryScore fm q aliases i a = some { row_idx := i, score := maxScore }) :
    ∃ l₁ l₂, computeMatches fm q aliases g = l₁ ++ i :: l₂ ∧
      ∀ j ∈ l₁, j < i ∧ ∃ b, aliases.get? j = some b ∧
        entryScore fm q aliases j b = some { row_idx := j, score := maxScore } := by
  have hmem : ({ row_idx := i, score := maxScore } : MatchResult) ∈
      scoredAux fm q aliases 0 aliases := by
    refine (scoredAux_mem fm q aliases aliases 0 _).mpr ⟨i, a, ha, ?_⟩
    rw [Nat.zero_add]
    exact hsc
  have hmem2 : ({ row_idx := i, score := maxScore } : MatchResult) ∈
      sortScored (scoredAux fm q aliases 0 aliases) := sortScored_mem.mpr hmem
  obtain ⟨L₁, L₂, hL⟩ := List.append_of_mem hmem2
  have hpw : (sortScored (scoredAux fm q aliases 0 aliases)).Pairwise ScoreLex :=
    sortScored_pairwise (scoredAux_pairwise fm q aliases aliases 0)
  rw [hL] at hpw
  rcases List.pairwise_append.mp hpw with ⟨-, -, hcross⟩
  refine ⟨L₁.map MatchResult.row_idx, L₂.map MatchResult.row_idx, ?_, ?_⟩
  · rw [computeMatches_ne hq, hL]
    simp
  · intro j hj
    rcases List.mem_map.mp hj with ⟨b, hbmem, rfl⟩
    have hbS : b ∈ scoredAux fm q aliases 0 aliases := by
      refine sortScored_mem.mp ?_
      rw [hL]
      exact List.mem_append_left _ hbmem
    have hble : b.score ≤ maxScore := by
      obtain ⟨k, c, hk, hsc2⟩ := (scoredAux_mem fm q aliases aliases 0 b).mp hbS
      exact entryScore_score_le hb hsc2
    have hlex : ScoreLex b { row_idx := i, score := maxScore } :=
      hcross b hbmem _ (List.mem_cons_self _ _)
    rcases hlex with hlt | ⟨heq, hrow⟩
    · exact absurd hlt (not_lt_of_le hble)
    · obtain ⟨k, c, hk, hsc2⟩ := (scoredAux_mem fm q aliases aliases 0 b).mp hbS
      have hrowk : b.row_idx = k := by
        have := entryScore_row hsc2
        omega
      refine ⟨hrow, c, ?_, ?_⟩
      · rw [hrowk]
        exact hk
      · rw [hrowk]
        rw [Nat.zero_add] at hsc2
        rw [hsc2]
        have hbs : b.score = maxScore := by simpa using heq
        cases b
        simp_all

/-- The name looked up by `MatchResult::new` is the name of the entry at
that index. -/
theorem aliasName_eq {aliases : List Alias} {i : Nat} {a : Alias}
    (ha : aliases.get? i = some a) : aliasName aliases i = a.name := by
  unfold aliasName
  rw [ha]
  rfl

/-- An all-hex selection normalizes by prefixing `"U+"`. -/
theorem numericSelection_hex {h : String}
    (hhex : h.data.all isAsciiHexdigit = true) :
    numericSelection h = some ("U+" ++ h) := by
  rw [numericSelection, if_pos hhex]

/-- The demonstration scorer is `i64`-bounded. -/
theorem modelFuzzy_bounded : FmBounded modelFuzzy := by
  intro c p k hk
  unfold modelFuzzy at hk
  split at hk
  · cases hk
    refine le_trans (Int.ofNat_le.mpr (Nat.min_le_right p.length 100)) ?_
    decide
  · cases hk

/-- The scorer that never matches is `i64`-bounded. -/
theorem neverMatch_bounded : FmBounded neverMatch := by
  intro c p k hk
  simp [neverMatch] at hk

/-- Unfolded form of `moveDown` (the `let` bindings expanded and the
cached-length `match` folded into `cachedLen`). -/
theorem moveDown_eq (aliases : List Alias) (s : SelectorState) :
    moveDown aliases s =
      if s.maxRowsOnScreen = 0 ∨
          2 ^ 64 ≤ min (s.selectedRow + 1) (cachedLen aliases s - 1) + s.topRow then
        none
      else
        some { s with
               selectedRow := min (s.selectedRow + 1) (cachedLen aliases s - 1),
               topRow :=
                 if min (s.selectedRow + 1) (cachedLen aliases s - 1) + s.topRow >
                     s.maxRowsOnScreen - 1 then
                   min (s.selectedRow + 1) (cachedLen aliases s - 1) -
                     (s.maxRowsOnScreen - 1)
                 else s.topRow } := rfl

/-- `move_up` preserves the selection-state invariants. -/
theorem moveUp_inv {aliases : List Alias} {s : SelectorState}
    (hs : StateInv aliases s) : StateInv aliases (moveUp s) := by
  obtain ⟨⟨m, hm, hms, hmg⟩, h1, h2, h3, h4⟩ := hs
  have hcl : cachedLen aliases (moveUp s) = cachedLen aliases s := rfl
  refine ⟨⟨m, hm, hms, hmg⟩, ?_, ?_, ?_, ?_⟩ <;>
    (try simp only [hcl]) <;> (try simp only [moveUp]) <;>
    (try split) <;> omega

/-- Under the invariants, `move_down` neither underflows nor overflows and
preserves the invariants. -/
theorem moveDown_some_inv {aliases : List Alias} {s : SelectorState}
    (hs : StateInv aliases s) :
    ∃ s1, moveDown aliases s = some s1 ∧ StateInv aliases s1 := by
  obtain ⟨⟨m, hm, hms, hmg⟩, h1, h2, h3, h4⟩ := hs
  have hcond : ¬(s.maxRowsOnScreen = 0 ∨
      2 ^ 64 ≤ min (s.selectedRow + 1) (cachedLen aliases s - 1) + s.topRow) := by
    push_neg
    omega
  have hrec : ∀ r t, cachedLen aliases
      { s with selectedRow := r, topRow := t } = cachedLen aliases s :=
    fun _ _ => rfl
  rw [moveDown_eq, if_neg hcond]
  refine ⟨_, rfl, ⟨⟨m, hm, hms, hmg⟩, ?_, ?_, ?_, ?_⟩⟩ <;>
    (try simp only [hrec]) <;> (try split) <;> omega

/-- C4: for every catalog and every group filter, `compute_matches` with
the empty query returns exactly the indices of the entries whose group
equals the filter, in ascending catalog order, independently of the
scorer. -/
theorem empty_query_browse (fm : Matcher) (aliases : List Alias)
    (g : CharSelectGroup) :
    (computeMatches fm "" aliases g).Pairwise (· < ·) ∧
    ∀ i, (i ∈ computeMatches fm "" aliases g ↔
      ∃ a, aliases.get? i = some a ∧ a.group = g) := by
  have he : computeMatches fm "" aliases g = groupAux g 0 aliases := by
    rw [computeMatches, if_pos rfl]
  refine ⟨by rw [he]; exact groupAux_pairwise g aliases 0, ?_⟩
  intro i
  rw [he, groupAux_mem]
  constructor
  · rintro ⟨k, a, hk, hik, hg⟩
    refine ⟨a, ?_, hg⟩
    rw [show i = k by omega]
    exact hk
  · rintro ⟨a, ha, hg⟩
    exact ⟨i, a, ha, by omega, hg⟩

/-- C6: for every non-empty query, the result is the row projection of the
stably sorted score list, and entries with equal score appear in ascending
catalog-index order (the descending sort is stable). -/
theorem rank_stable_ties (fm : Matcher) (q : String) (aliases : List Alias)
    (g : CharSelectGroup) (hq : q ≠ "") :
    computeMatches fm q aliases g =
      (sortScored (scoredAux fm q aliases 0 aliases)).map MatchResult.row_idx ∧
    (sortScored (scoredAux fm q aliases 0 aliases)).Pairwise
      (fun a b => a.score = b.score → a.row_idx < b.row_idx) := by
  refine ⟨computeMatches_ne hq, ?_⟩
  refine (sortScored_pairwise (scoredAux_pairwise fm q aliases aliases 0)).imp ?_
  intro a b hab heq
  rcases hab with hlt | ⟨-, hr⟩
  · rw [heq] at hlt
    exact absurd hlt (lt_irrefl _)
  · exact hr

/-- Witness for C6 at the concrete duplicate-name catalog: both entries
score the same, and the output keeps catalog order. -/
theorem rank_stable_ties_witness :
    ("zz" : String) ≠ "" ∧
    (computeMatches modelFuzzy "zz" cAliases5 demoGroup =
      (sortScored (scoredAux modelFuzzy "zz" cAliases5 0 cAliases5)).map
        MatchResult.row_idx ∧
    (sortScored (scoredAux modelFuzzy "zz" cAliases5 0 cAliases5)).Pairwise
      (fun a b => a.score = b.score → a.row_idx < b.row_idx)) :=
  ⟨by decide, rank_stable_ties modelFuzzy "zz" cAliases5 demoGroup (by decide)⟩

/-- C9: each query or group mutation (append character, backspace, clear,
cycle group) resets both the cursor and the viewport offset to zero. -/
theorem mutation_resets_cursor (s : SelectorState) (c : Char) :
    (appendChar c s).selectedRow = 0 ∧ (appendChar c s).topRow = 0 ∧
    (backspace s).selectedRow = 0 ∧ (backspace s).topRow = 0 ∧
    (clearQuery s).selectedRow = 0 ∧ (clearQuery s).topRow = 0 ∧
    (cycleGroup s).selectedRow = 0 ∧ (cycleGroup s).topRow = 0 :=
  ⟨rfl, rfl, rfl, rfl, rfl, rfl, rfl, rfl⟩

/-- C10: the group filter has no influence on the result of a non-empty
query. -/
theorem group_filter_not_applied (fm : Matcher) (q : String) (hq : q ≠ "")
    (aliases : List Alias) (g1 g2 : CharSelectGroup) :
    computeMatches fm q aliases g1 = computeMatches fm q aliases g2 := by
  rw [computeMatches_ne hq, computeMatches_ne hq]

/-- Witness for C10 at a concrete query and two distinct groups. -/
theorem group_filter_not_applied_witness :
    ("zz" : String) ≠ "" ∧
    computeMatches modelFuzzy "zz" cAliases5 demoGroup =
      computeMatches modelFuzzy "zz" cAliases5 CharSelectGroup.flags :=
  ⟨by decide,
   group_filter_not_applied modelFuzzy "zz" (by decide) cAliases5 demoGroup .flags⟩

/-- C8: a second cache refresh right after a first one returns the same
state without recomputing, and a refresh recomputes exactly when no cache
exists or the cached (query, group) pair differs from the current one. -/
theorem current_result_memoized (fm : Matcher) (aliases : List Alias)
    (s : SelectorState) :
    updateMatches fm aliases (updateMatches fm aliases s).1 =
      ((updateMatches fm aliases s).1, false) ∧
    ((updateMatches fm aliases s).2 = false ↔
      ∃ m, s.matches' = some m ∧ m.selection = s.selection ∧
        m.group = s.group) := by
  rcases hm : s.matches' with _ | m
  · have h1 : updateMatches fm aliases s =
        ({ s with matches' := some { selection := s.selection,
                                     matches' := computeMatches fm s.selection aliases s.group,
                                     group := s.group } },
         true) := by
      simp [updateMatches, hm]
    rw [h1]
    refine ⟨by simp [updateMatches], ?_⟩
    simp [hm]
  · by_cases hc : m.selection = s.selection ∧ m.group = s.group
    · have h1 : updateMatches fm aliases s = (s, false) := by
        simp [updateMatches, hm, hc.1, hc.2]
      rw [h1]
      refine ⟨h1, ?_⟩
      simp only [eq_self_iff_true, true_iff]
      exact ⟨m, rfl, hc.1, hc.2⟩
    · have h1 : updateMatches fm aliases s =
          ({ s with matches' := some { selection := s.selection,
                                       matches' := computeMatches fm s.selection aliases s.group,
                                       group := s.group } },
           true) := by
        rcases not_and_or.mp hc with hne | hne <;>
          simp [updateMatches, hm, hne]
      rw [h1]
      refine ⟨by simp [updateMatches], ?_⟩
      constructor
      · intro h
        cases h
      · rintro ⟨m2, hm2, hsel, hgrp⟩
        obtain rfl : m2 = m := (Option.some_inj.mp hm2).symm
        exact absurd ⟨hsel, hgrp⟩ hc

/-- C1 (amended): for a query of hex digits whose rendering matches the
entry's uppercase codepoint string byte-for-byte (the comparison in the
code is case-sensitive, not case-insensitive), the entry scores the
maximum and appears first in the result up to maximum-score ties, which
are resolved in catalog order. -/
theorem hex_codepoint_exact_first (fm : Matcher) (hb : FmBounded fm)
    (q : String) (hne : q ≠ "") (hhex : q.data.all isAsciiHexdigit = true)
    (aliases : List Alias) (g : CharSelectGroup) (i : Nat) (a : Alias)
    (ha : aliases.get? i = some a) (hcp : a.codepoints = "U+" ++ q) :
    entryScore fm q aliases i a = some { row_idx := i, score := maxScore } ∧
    ∃ l₁ l₂, computeMatches fm q aliases g = l₁ ++ i :: l₂ ∧
      ∀ j ∈ l₁, j < i ∧ ∃ b, aliases.get? j = some b ∧
        entryScore fm q aliases j b = some { row_idx := j, score := maxScore } := by
  have hsc : entryScore fm q aliases i a =
      some { row_idx := i, score := maxScore } := by
    rw [entryScore_some_eq (numericSelection_hex hhex), if_pos hcp]
  exact ⟨hsc, maxEntry_first fm hb q hne aliases g i a ha hsc⟩

/-- Witness for C1's amended theorem: uppercase query `"1F600"` against the
catalog entry whose codepoint string is `"U+1F600"`. -/
theorem hex_codepoint_exact_first_witness :
    ("1F600" : String) ≠ "" ∧
    ("1F600" : String).data.all isAsciiHexdigit = true ∧
    wAliases.get? 0 = some wAlias ∧
    wAlias.codepoints = "U+" ++ "1F600" ∧
    (entryScore neverMatch "1F600" wAliases 0 wAlias =
        some { row_idx := 0, score := maxScore } ∧
      ∃ l₁ l₂, computeMatches neverMatch "1F600" wAliases demoGroup = l₁ ++ 0 :: l₂ ∧
        ∀ j ∈ l₁, j < 0 ∧ ∃ b, wAliases.get? j = some b ∧
          entryScore neverMatch "1F600" wAliases j b =
            some { row_idx := j, score := maxScore }) :=
  ⟨by decide, by decide, rfl, by decide,
   hex_codepoint_exact_first neverMatch neverMatch_bounded "1F600" (by decide)
     (by decide) wAliases demoGroup 0 wAlias rfl (by decide)⟩

/-- C1 counterexample: the lowercase all-hex query `"1f600"` matches the
codepoint string `"U+1F600"` of entry 1 case-insensitively, yet the code
compares case-sensitively: the entry's score is an ordinary fuzzy score
(7 under the demonstration scorer), not the maximum, and the entry is
listed second behind an equal-scored entry, not first. -/
theorem hex_codepoint_ci_not_max :
    ("1f600" : String).data.all isAsciiHexdigit = true ∧
    eqCaseInsensitive cEntry1.codepoints ("U+" ++ "1f600") = true ∧
    cAliases1.get? 1 = some cEntry1 ∧
    entryScore modelFuzzy "1f600" cAliases1 1 cEntry1 =
      some { row_idx := 1, score := 7 } ∧
    (7 : Int) ≠ maxScore ∧
    computeMatches modelFuzzy "1f600" cAliases1 demoGroup = [0, 1] :=
  ⟨by decide, by decide, rfl, by decide, by decide, by decide⟩

/-- C5 (amended): an entry whose name equals the non-empty query exactly
(byte-for-byte) has its score forced to the maximum, and it appears first
in the result up to maximum-score ties (such as a duplicate of the same
name earlier in the catalog), which are resolved in catalog order. -/
theorem exact_name_boost (fm : Matcher) (hb : FmBounded fm) (q : String)
    (hq : q ≠ "") (hself : (fm q q).isSome = true)
    (aliases : List Alias) (g : CharSelectGroup) (i : Nat) (a : Alias)
    (ha : aliases.get? i = some a) (hname : a.name = q) :
    entryScore fm q aliases i a = some { row_idx := i, score := maxScore } ∧
    ∃ l₁ l₂, computeMatches fm q aliases g = l₁ ++ i :: l₂ ∧
      ∀ j ∈ l₁, j < i ∧ ∃ b, aliases.get? j = some b ∧
        entryScore fm q aliases j b = some { row_idx := j, score := maxScore } := by
  obtain ⟨k, hk⟩ := Option.isSome_iff_exists.mp hself
  have hfm : fm a.name q = some k := by
    rw [hname]
    exact hk
  have hnew : MatchResult.new i k q aliases =
      { row_idx := i, score := maxScore } := by
    unfold MatchResult.new
    rw [aliasName_eq ha, hname, if_pos rfl]
  have hsc : entryScore fm q aliases i a =
      some { row_idx := i, score := maxScore } := by
    rcases hn : numericSelection q with _ | s
    · rw [entryScore_none_eq hn, hfm]
      simp only [Option.map]
      rw [hnew]
    · rw [entryScore_some_eq hn]
      by_cases hc : a.codepoints = s
      · rw [if_pos hc]
      · rw [if_neg hc, hfm]
        rcases hg : fm a.codepoints s with _ | k2 <;>
          simp only [Option.map]
        · rw [hnew]
        · rw [hnew]
          have hle : (MatchResult.new i k2 s aliases).score ≤ maxScore :=
            MatchResult.new_score_le (hb _ _ _ hg)
          simp only [Option.some_inj]
          congr 1
          simpa using max_eq_left hle
  exact ⟨hsc, maxEntry_first fm hb q hq aliases g i a ha hsc⟩

/-- Witness for C5's amended theorem: query `"zz"` against the
duplicate-name catalog, exact-name entry at index 0. -/
theorem exact_name_boost_witness :
    ("zz" : String) ≠ "" ∧
    (modelFuzzy "zz" "zz").isSome = true ∧
    (cAliases5.get? 0).map Alias.name = some "zz" ∧
    (entryScore modelFuzzy "zz" cAliases5 0
        { name := "zz", character := .unicode "zz" 'a', group := demoGroup } =
      some { row_idx := 0, score := maxScore } ∧
      ∃ l₁ l₂, computeMatches modelFuzzy "zz" cAliases5 demoGroup = l₁ ++ 0 :: l₂ ∧
        ∀ j ∈ l₁, j < 0 ∧ ∃ b, cAliases5.get? j = some b ∧
          entryScore modelFuzzy "zz" cAliases5 j b =
            some { row_idx := j, score := maxScore }) :=
  ⟨by decide, by decide, rfl,
   exact_name_boost modelFuzzy modelFuzzy_bounded "zz" (by decide) (by decide)
     cAliases5 demoGroup 0
     { name := "zz", character := .unicode "zz" 'a', group := demoGroup }
     rfl rfl⟩

/-- C5 counterexample: with two entries both named exactly `"zz"`, the
entry at index 1 satisfies the claim's premise but the output is `[0, 1]`,
so index 1 does not appear first. -/
theorem exact_name_not_first :
    (cAliases5.get? 1).map Alias.name = some "zz" ∧
    computeMatches modelFuzzy "zz" cAliases5 demoGroup = [0, 1] :=
  ⟨rfl, by decide⟩

/-- C7: when the query is non-empty and normalizes to a numeric selection,
each entry's score is the combination of the name path and the codepoint
path (the maximum of the two when both match, either one otherwise), an
exact codepoint-string match forces the maximum score, and an entry is in
the result exactly when one of the two paths matches. -/
theorem numeric_path_combination (fm : Matcher) (hb : FmBounded fm)
    (q sel : String) (hq : q ≠ "") (hnum : numericSelection q = some sel)
    (aliases : List Alias) (g : CharSelectGroup) (i : Nat) (a : Alias)
    (ha : aliases.get? i = some a) :
    entryScore fm q aliases i a =
      combinePaths i (namePath fm q aliases i a) (cpPath fm sel aliases i a) ∧
    (a.codepoints = sel →
      entryScore fm q aliases i a = some { row_idx := i, score := maxScore }) ∧
    (i ∈ computeMatches fm q aliases g ↔
      ((namePath fm q aliases i a).isSome = true ∨
       (cpPath fm sel aliases i a).isSome = true)) := by
  have hmain : entryScore fm q aliases i a =
      combinePaths i (namePath fm q aliases i a) (cpPath fm sel aliases i a) := by
    rw [entryScore_some_eq hnum]
    by_cases hc : a.codepoints = sel
    · rw [if_pos hc]
      rw [cpPath, if_pos hc, namePath]
      rcases hf : fm a.name q with _ | k <;> simp only [Option.map]
      · rfl
      · rw [combinePaths]
        have hle : (MatchResult.new i k q aliases).score ≤ maxScore :=
          MatchResult.new_score_le (hb _ _ _ hf)
        simp only [Option.some_inj]
        congr 1
        simpa using (max_eq_right hle).symm
    · rw [if_neg hc]
      rw [cpPath, if_neg hc, namePath]
      rcases hf : fm a.name q with _ | k <;>
        rcases hg : fm a.codepoints sel with _ | k2 <;>
        simp only [Option.map] <;> rfl
  refine ⟨hmain, ?_, ?_⟩
  · intro hc
    rw [entryScore_some_eq hnum, if_pos hc]
  · constructor
    · intro hmem
      rw [computeMatches_ne hq] at hmem
      rcases List.mem_map.mp hmem with ⟨mr, hmr, hrow⟩
      obtain ⟨k, c, hk, hsc⟩ :=
        (scoredAux_mem fm q aliases aliases 0 mr).mp (sortScored_mem.mp hmr)
      have hki : k = i := by
        have := entryScore_row hsc
        omega
      rw [hki] at hsc hk
      rw [Nat.zero_add] at hsc
      have hca : c = a := by
        rw [hk] at ha
        exact Option.some_inj.mp ha.symm |>.symm
      rw [hca] at hsc
      rw [hmain] at hsc
      rcases hnp : namePath fm q aliases i a with _ | x <;>
        rcases hcp2 : cpPath fm sel aliases i a with _ | y <;>
        rw [hnp, hcp2] at hsc
      · cases hsc
      · right
        rfl
      · left
        rfl
      · left
        rfl
    · intro hpath
      have hsome : ∃ mr, combinePaths i (namePath fm q aliases i a)
          (cpPath fm sel aliases i a) = some mr := by
        rcases hnp : namePath fm q aliases i a with _ | x <;>
          rcases hcp2 : cpPath fm sel aliases i a with _ | y
        · rw [hnp, hcp2] at hpath
          rcases hpath with h | h <;> cases h
        · exact ⟨y, rfl⟩
        · exact ⟨x, rfl⟩
        · exact ⟨{ row_idx := i, score := max x.score y.score }, rfl⟩
      obtain ⟨mr, hmr⟩ := hsome
      have hsc : entryScore fm q aliases i a = some mr := by
        rw [hmain]
        exact hmr
      have hmem : mr ∈ scoredAux fm q aliases 0 aliases :=
        (scoredAux_mem fm q aliases aliases 0 mr).mpr
          ⟨i, a, ha, by rw [Nat.zero_add]; exact hsc⟩
      rw [computeMatches_ne hq]
      exact List.mem_map.mpr ⟨mr, sortScored_mem.mpr hmem, entryScore_row hsc⟩

/-- Witness for C7 at query `"A"` (normalized `"U+A"`) and the entry whose
codepoint string is exactly `"U+A"`. -/
theorem numeric_path_combination_witness :
    ("A" : String) ≠ "" ∧
    numericSelection "A" = some "U+A" ∧
    wAliases7.get? 0 = some wAlias7 ∧
    (entryScore modelFuzzy "A" wAliases7 0 wAlias7 =
      combinePaths 0 (namePath modelFuzzy "A" wAliases7 0 wAlias7)
        (cpPath modelFuzzy "U+A" wAliases7 0 wAlias7) ∧
    (wAlias7.codepoints = "U+A" →
      entryScore modelFuzzy "A" wAliases7 0 wAlias7 =
        some { row_idx := 0, score := maxScore }) ∧
    (0 ∈ computeMatches modelFuzzy "A" wAliases7 demoGroup ↔
      ((namePath modelFuzzy "A" wAliases7 0 wAlias7).isSome = true ∨
       (cpPath modelFuzzy "U+A" wAliases7 0 wAlias7).isSome = true))) :=
  ⟨by decide, by decide, rfl,
   numeric_path_combination modelFuzzy modelFuzzy_bounded "A" "U+A" (by decide)
     (by decide) wAliases7 demoGroup 0 wAlias7 rfl⟩

/-- C2 (amended): `move_down` is total on every state whose viewport
height is positive (as established by any render) and whose `usize`
cursor arithmetic cannot overflow; `move_up` and the query/group mutators
are total by construction (they only use saturating operations), and a
non-empty query that matches no entry yields the empty result rather than
an error.  On the pre-render state with `max_rows_on_screen = 0`,
`move_down` is not total (see the counterexample). -/
theorem mutators_total (fm : Matcher) (aliases : List Alias)
    (s : SelectorState) (hrows : 1 ≤ s.maxRowsOnScreen)
    (hfit : s.selectedRow + s.topRow + 1 < 2 ^ 64) :
    (moveDown aliases s).isSome = true ∧
    ∀ (q : String) (g : CharSelectGroup), q ≠ "" →
      (∀ i a, aliases.get? i = some a → entryScore fm q aliases i a = none) →
      computeMatches fm q aliases g = [] := by
  constructor
  · have hcond : ¬(s.maxRowsOnScreen = 0 ∨
        2 ^ 64 ≤ min (s.selectedRow + 1) (cachedLen aliases s - 1) + s.topRow) := by
      push_neg
      omega
    rw [moveDown_eq, if_neg hcond]
    rfl
  · intro q g hq hnone
    have hempty : scoredAux fm q aliases 0 aliases = [] := by
      rcases he : scoredAux fm q aliases 0 aliases with _ | ⟨mr, rest⟩
      · rfl
      · have hmem : mr ∈ scoredAux fm q aliases 0 aliases := by
          rw [he]
          exact List.mem_cons_self _ _
        obtain ⟨k, a, hk, hsc⟩ := (scoredAux_mem fm q aliases aliases 0 mr).mp hmem
        rw [Nat.zero_add] at hsc
        rw [hnone k a hk] at hsc
        cases hsc
    rw [computeMatches_ne hq, hempty]
    rfl

/-- Witness for C2's amended theorem at a concrete post-render state and
the unmatched query `"q"` over the empty catalog. -/
theorem mutators_total_witness :
    1 ≤ wState2.maxRowsOnScreen ∧
    wState2.selectedRow + wState2.topRow + 1 < 2 ^ 64 ∧
    ((moveDown [] wState2).isSome = true ∧
     ∀ (q : String) (g : CharSelectGroup), q ≠ "" →
       (∀ i a, ([] : List Alias).get? i = some a →
         entryScore neverMatch q [] i a = none) →
       computeMatches neverMatch q [] g = []) :=
  ⟨by decide, by decide,
   mutators_total neverMatch [] wState2 (by decide) (by decide)⟩

/-- C2 counterexample: on the state produced by `CharSelector::new`
(`max_rows_on_screen = 0`, before any render), `move_down` evaluates
`max_rows_on_screen - 1`, a `usize` underflow — a Rust arithmetic program
error (panic under debug assertions) — so the mutator is not total on
every state. -/
theorem moveDown_initial_fails :
    moveDown wAliases (initialState CharSelectGroup.smileysAndEmotion) = none :=
  by decide

/-- C3: starting from any state satisfying the selection-state invariants,
any sequence of `move_up`/`move_down` calls succeeds and re-establishes
the invariants: the cursor stays visible
(`viewport_offset ≤ cursor < viewport_offset + viewport_height`) and in
range (`cursor < max 1 (result length)`). -/
theorem moves_preserve_invariants (aliases : List Alias) (s : SelectorState)
    (hs : StateInv aliases s) (ms : List Move) :
    ∃ s1, applyMoves aliases ms s = some s1 ∧ StateInv aliases s1 := by
  induction ms generalizing s with
  | nil => exact ⟨s, rfl, hs⟩
  | cons m rest ih =>
    cases m with
    | up =>
      obtain ⟨s2, h2, hi2⟩ := ih (moveUp s) (moveUp_inv hs)
      refine ⟨s2, ?_, hi2⟩
      rw [applyMoves, stepMove]
      exact h2
    | down =>
      obtain ⟨s1, hd, hinv⟩ := moveDown_some_inv hs
      obtain ⟨s2, h2, hi2⟩ := ih s1 hinv
      refine ⟨s2, ?_, hi2⟩
      rw [applyMoves]
      rw [stepMove, hd]
      exact h2

/-- Witness for C3 at a concrete valid state and a concrete move
sequence. -/
theorem moves_preserve_invariants_witness :
    StateInv wAliases wState3 ∧
    ∃ s1, applyMoves wAliases [Move.down, Move.up, Move.down] wState3 = some s1 ∧
      StateInv wAliases s1 := by
  have hs : StateInv wAliases wState3 :=
    ⟨⟨{ selection := "", matches' := [0], group := demoGroup }, rfl, rfl, rfl⟩,
     by decide, by decide, by decide, by decide⟩
  exact ⟨hs, moves_preserve_invariants wAliases wState3 hs
    [Move.down, Move.up, Move.down]⟩
